import Mathlib

/-!
Verification of the court-party fuzzy-matching deduplication engine
(`RemoveRepetitiveNames` in FuzzyMatching.ipynb).

The engine is embedded shallowly:
  * names are `List Char` / `String` (ASCII model of Python `str`: `str.lower`
    is modelled character-wise on A-Z, regex `\s` as the six ASCII whitespace
    characters);
  * the pandas frame is a `List PartyRow`;
  * the window bounds `position*.8` / `position*1.2` and the similarity
    threshold `.8`, which Python computes with floats, are modelled as the
    exact rationals 4/5 and 6/5 (no claim below hinges on a float tie);
  * `difflib.SequenceMatcher.ratio` is modelled by the Ratcliff/Obershelp
    longest-match recursion of difflib without the junk/autojunk heuristic
    (autojunk only fires for strings of length >= 200, far above every
    name considered here);
  * `fuzzywuzzy.fuzz.ratio` is modelled by its pure-python fallback
    `int(round(100 * SequenceMatcher(None,a,b).ratio()))`, with Python's
    banker's rounding;
  * the `'|'.join(...).translate(...).split('|')` punctuation trick is
    modelled per-name (it is per-name whenever no name contains `'|'`,
    which the trick itself silently assumes).
-/

namespace FuzzyMatching

/-- ASCII whitespace, the characters Python's regex `\s` matches in ASCII. -/
def is_ws (c : Char) : Bool :=
  c = ' ' || c = '\t' || c = '\n' || c = '\x0b' || c = '\x0c' || c = '\r'

/-- The character set deleted by `remove_punc_num`: the string
`'1234567890!"#$%&\'()*+,-./:;<=>?@[\\]^_`{}~'` when `remove_numbers` is true,
the same without the digits otherwise.  `|` is deliberately absent (the code
uses it as a join delimiter). -/
def punct_chars (remove_numbers : Bool) : List Char :=
  if remove_numbers then
    "1234567890!\"#$%&\x27()*+,-./:;<=>?@[\\]^_\x60\x7b\x7d~".toList
  else
    "!\"#$%&\x27()*+,-./:;<=>?@[\\]^_\x60\x7b\x7d~".toList

/-- `RemoveRepetitiveNames.remove_punc_num`, per name: delete every
character of the punctuation (and optionally digit) set. -/
def remove_punc_num (remove_numbers : Bool) (l : List Char) : List Char :=
  l.filter (fun c => !(punct_chars remove_numbers).contains c)

/-- Helper for `collapse_ws`: the boolean records whether the previous kept
position was inside a whitespace run (so further whitespace is dropped). -/
def collapse_aux : Bool → List Char → List Char
  | _, [] => []
  | prevWS, c :: cs =>
    if is_ws c then
      if prevWS then collapse_aux true cs
      else ' ' :: collapse_aux true cs
    else c :: collapse_aux false cs

/-- The `self.data.party_name.replace('\s+', ' ', regex=True)` step: every
maximal run of whitespace characters becomes a single space.  Note that a
leading or trailing run also becomes a single space: nothing is trimmed. -/
def collapse_ws (l : List Char) : List Char := collapse_aux false l

/-- ASCII `str.lower`, character-wise. -/
def lower_char : Char → Char
  | 'A' => 'a' | 'B' => 'b' | 'C' => 'c' | 'D' => 'd' | 'E' => 'e'
  | 'F' => 'f' | 'G' => 'g' | 'H' => 'h' | 'I' => 'i' | 'J' => 'j'
  | 'K' => 'k' | 'L' => 'l' | 'M' => 'm' | 'N' => 'n' | 'O' => 'o'
  | 'P' => 'p' | 'Q' => 'q' | 'R' => 'r' | 'S' => 's' | 'T' => 't'
  | 'U' => 'u' | 'V' => 'v' | 'W' => 'w' | 'X' => 'x' | 'Y' => 'y'
  | 'Z' => 'z'
  | c => c

/-- The `.str.lower()` step. -/
def lower_name (l : List Char) : List Char := l.map lower_char

/-- Python `party_name.split(' ')`: split on single spaces, keeping empty
tokens (so `" a"` splits to `["", "a"]`). -/
def split_sp : List Char → List (List Char)
  | [] => [[]]
  | c :: cs =>
    if c = ' ' then [] :: split_sp cs
    else
      match split_sp cs with
      | t :: ts => (c :: t) :: ts
      | [] => [[c]]

/-- Python `' '.join(tokens)`. -/
def join_sp : List (List Char) → List Char
  | [] => []
  | [t] => t
  | t :: ts => t ++ ' ' :: join_sp ts

/-- The module-level `stopwords = ['llc', 'inc', 'pllc']` list.  The method
`remove_stopwords` reads this global name, not `self.stopwords`. -/
def stopwords_global : List String := ["llc", "inc", "pllc"]

/-- `RemoveRepetitiveNames.remove_stopwords`: split on spaces, keep tokens
that are not in the module-level global `stopwords` list, re-join. -/
def remove_stopwords (l : List Char) : List Char :=
  join_sp ((split_sp l).filter (fun t => !stopwords_global.contains (String.mk t)))

/-- `RemoveRepetitiveNames.abbreviate`: split on spaces, replace every token
that is a key of the abbreviation mapping by its value, re-join. -/
def abbreviate (abb : List (String × String)) (l : List Char) : List Char :=
  join_sp ((split_sp l).map (fun t =>
    match abb.lookup (String.mk t) with
    | some v => v.toList
    | none => t))

/-- Python truthiness of the optional stopword list argument. -/
def truthy_stop : Option (List String) → Bool
  | none => false
  | some l => !l.isEmpty

/-- Python truthiness of the optional abbreviation mapping argument. -/
def truthy_abb : Option (List (String × String)) → Bool
  | none => false
  | some l => !l.isEmpty

/-- The constructor arguments of `RemoveRepetitiveNames` that the engine
itself consumes (the filename is I/O, out of scope). -/
structure Config where
  abbreviations : Option (List (String × String)) := none
  stopwords : Option (List String) := none
  size : Nat := 10000
  algorithm : String := "seq"
  remove_numbers : Bool := true

/-- The conditional stopword step of `__init__`. -/
def stop_stage (cfg : Config) (l : List Char) : List Char :=
  if truthy_stop cfg.stopwords then remove_stopwords l else l

/-- The conditional abbreviation step of `__init__`. -/
def abb_stage (cfg : Config) (l : List Char) : List Char :=
  if truthy_abb cfg.abbreviations then
    abbreviate (cfg.abbreviations.getD []) l
  else l

/-- The whole name-normalisation pipeline of `__init__`, in the order the
code applies it: punctuation/number removal, whitespace collapsing,
lowercasing, optional stopword removal, optional abbreviation. -/
def normalize_name (cfg : Config) (s : String) : String :=
  String.mk (abb_stage cfg (stop_stage cfg
    (lower_name (collapse_ws (remove_punc_num cfg.remove_numbers s.toList)))))

/-- The configuration of spec Scenario A: abbreviation map
`{"apartments": "apt"}`, stopword set `{"llc"}`, the Levenshtein algorithm
selector, numbers removed. -/
def scenarioA_cfg : Config :=
  { abbreviations := some [("apartments", "apt")]
    stopwords := some ["llc"]
    algorithm := "levenshtein" }

example : normalize_name scenarioA_cfg "ABC Apartments LLC" = "abc apt" := by decide

example : normalize_name scenarioA_cfg "ABC Apts LLC" = "abc apts" := by decide

example : normalize_name { stopwords := some ["foo"] } "foo llc" = "foo" := by decide

example : normalize_name {} " a,1b  c " = " ab c " := by decide

/-- `RemoveRepetitiveNames.sum_string`: `sum(ord(c) - 64 for c in string)`.
On the lowercased names it is applied to, `'a'` contributes 33, …, `'z'`
contributes 58, and `' '` contributes -32. -/
def sum_string (s : String) : Int :=
  (s.toList.map (fun c => (c.toNat : Int) - 64)).sum

/-- The blocking key: `word_sum + word_length*33` (the `position` column). -/
def position_of (s : String) : Int :=
  sum_string s + 33 * (s.length : Int)

example : position_of "abc apt" = 434 := by decide
example : position_of "abc apts" = 518 := by decide

/-- One inner sweep of difflib's `find_longest_match` DP: scan `j` upward for
`steps` positions, with `j2len` the previous row of the "longest match ending
here" table and `newj2len` the row being built; `best` is
`(besti, bestj, bestsize)`, updated exactly when `k > bestsize`. -/
def flm_row (b : List Char) (ai : Char) (i : Nat) (j2len : List Nat) :
    Nat → Nat → List Nat → Nat × Nat × Nat → List Nat × (Nat × Nat × Nat)
  | _, 0, newj2len, best => (newj2len, best)
  | j, steps+1, newj2len, best =>
    if b.getD j ' ' = ai then
      let k := (if j = 0 then 0 else j2len.getD (j-1) 0) + 1
      let best2 := if k > best.2.2 then (i + 1 - k, j + 1 - k, k) else best
      flm_row b ai i j2len (j+1) steps (newj2len.set j k) best2
    else flm_row b ai i j2len (j+1) steps newj2len best

/-- The outer sweep of `find_longest_match`: one `flm_row` per `i`. -/
def flm_rows (a b : List Char) (blo bhi : Nat) :
    Nat → Nat → List Nat → Nat × Nat × Nat → Nat × Nat × Nat
  | _, 0, _, best => best
  | i, steps+1, j2len, best =>
    let r := flm_row b (a.getD i ' ') i j2len blo (bhi - blo)
      (List.replicate b.length 0) best
    flm_rows a b blo bhi (i+1) steps r.1 r.2

/-- difflib `SequenceMatcher.find_longest_match` on the ranges
`[alo, ahi) x [blo, bhi)`, without the junk/autojunk heuristic (autojunk
only fires when `len(b) >= 200`). -/
def find_longest_match (a b : List Char) (alo ahi blo bhi : Nat) :
    Nat × Nat × Nat :=
  flm_rows a b blo bhi alo (ahi - alo) (List.replicate b.length 0) (alo, blo, 0)

/-- Total size of difflib's matching blocks: recurse left and right of the
longest match.  The first argument is fuel; `(a.length + b.length + 1)` is
always enough since each recursive level consumes at least one position. -/
def match_total (a b : List Char) : Nat → Nat → Nat → Nat → Nat → Nat
  | 0, _, _, _, _ => 0
  | fuel+1, alo, ahi, blo, bhi =>
    let r := find_longest_match a b alo ahi blo bhi
    if r.2.2 = 0 then 0
    else
      match_total a b fuel alo r.1 blo r.2.1 + r.2.2 +
        match_total a b fuel (r.1 + r.2.2) ahi (r.2.1 + r.2.2) bhi

/-- The total matched size `M` used by `SequenceMatcher.ratio` on a pair of
names. -/
def match_size (sa sb : String) : Nat :=
  let a := sa.toList
  let b := sb.toList
  match_total a b (a.length + b.length + 1) 0 a.length 0 b.length

example : match_size "abc apt" "abc apts" = 7 := by decide

/-- `RemoveRepetitiveNames.seq`: `SequenceMatcher(None, a, b).ratio()`, i.e.
`2*M / (len(a)+len(b))` where `M` is the total matched size (and 1.0 when
both strings are empty). -/
def seq (sa sb : String) : ℚ :=
  let total := sa.length + sb.length
  if total = 0 then 1 else (2 * match_size sa sb : ℚ) / (total : ℚ)

/-- Round `x / d` (with `d > 0`) half to even, Python's `round`. -/
def round_div (x d : Nat) : Nat :=
  let q := x / d
  let r := x % d
  if 2*r < d then q else if d < 2*r then q + 1 else if q % 2 = 0 then q else q + 1

example : round_div 2800 30 = 93 := by decide
example : round_div 5 2 = 2 := by decide
example : round_div 7 2 = 4 := by decide

/-- `RemoveRepetitiveNames.levenshtein`: `fuzz.ratio(a, b)`, modelled by
fuzzywuzzy's pure-python path `int(round(100 * SequenceMatcher.ratio))` =
`round(200*M / (len(a)+len(b)))`, an integer on the 0-100 scale. -/
def levenshtein (a b : String) : Nat :=
  let total := a.length + b.length
  if total = 0 then 100 else round_div (200 * match_size a b) total

example : levenshtein "abc apt" "abc apts" = 93 := by decide

/-- The algorithm dispatch inside the cluster-builder loop as a score in ℚ:
`'seq'` uses `seq`, `'levenshtein'` uses `levenshtein(..)/100`, and any
other selector falls through the bare `else` to `seq`. -/
def score_of (algorithm : String) (a b : String) : ℚ :=
  if algorithm = "seq" then seq a b
  else if algorithm = "levenshtein" then (levenshtein a b : ℚ) / 100
  else seq a b

/-- The executable form of the comparison `score >= .8` for the dispatched
algorithm, in exact integer arithmetic:
`2M/(la+lb) >= 4/5  iff  10*M >= 4*(la+lb)` (also correct for two empty
strings, where the ratio is defined as 1.0), and
`levenshtein(a,b)/100 >= 4/5  iff  levenshtein(a,b) >= 80`. -/
def match_test (algorithm : String) (a b : String) : Bool :=
  if algorithm = "levenshtein" then 80 ≤ levenshtein a b
  else 4 * (a.length + b.length) ≤ 10 * match_size a b

/-- One input/working row of the frame: the columns the engine touches.
`position` is the blocking-key column, 0 until it is computed. -/
structure PartyRow where
  party_name : String
  party_type : String
  party_address : String
  case_type : String
  year : Int
  party_count : Nat
  position : Int := 0
deriving DecidableEq, Repr

/-- Normalise the `party_name` column of one row. -/
def norm_row (cfg : Config) (r : PartyRow) : PartyRow :=
  { r with party_name := normalize_name cfg r.party_name }

/-- Helper for `dedup_by_name`: `seen` is the set of names already kept. -/
def dedup_aux (seen : List String) : List PartyRow → List PartyRow
  | [] => []
  | r :: rs =>
    if r.party_name ∈ seen then dedup_aux seen rs
    else r :: dedup_aux (r.party_name :: seen) rs

/-- Keep the first row of each `party_name` group, dropping every later row
with the same name: `drop_duplicates(subset=['party_name'])`. -/
def dedup_by_name (rows : List PartyRow) : List PartyRow := dedup_aux [] rows

/-- `groupby(['party_name'])['party_count'].transform('sum')`: the total
count of all rows of `rows` sharing the given name. -/
def sum_counts_for (rows : List PartyRow) (nm : String) : Nat :=
  ((rows.filter (fun r => r.party_name = nm)).map (fun r => r.party_count)).sum

/-- The exact-merge pass: every group's total count is written into each of
its rows, then duplicates are dropped keeping the first row per name. -/
def exact_merge (rows : List PartyRow) : List PartyRow :=
  (dedup_by_name rows).map (fun r => { r with party_count := sum_counts_for rows r.party_name })

/-- Fill the `position` column (computed after the exact-merge pass). -/
def with_positions (rows : List PartyRow) : List PartyRow :=
  rows.map (fun r => { r with position := position_of r.party_name })

/-- The working set the cluster builder iterates over: the first `size` rows,
normalised, exact-merged, with the blocking-key column filled in. -/
def working_set (cfg : Config) (input : List PartyRow) : List PartyRow :=
  with_positions (exact_merge ((input.take cfg.size).map (norm_row cfg)))

/-- The candidate-window test
`(position <= row.position*1.2) & (position >= row.position*.8)`,
with the float factors modelled as the exact rationals 4/5 and 6/5 and the
comparison cross-multiplied by 5: `q >= p*4/5 iff 4*p <= 5*q`. -/
def in_window (p q : Int) : Bool :=
  decide (4 * p ≤ 5 * q) && decide (5 * q ≤ 6 * p)

/-- One output cluster: the seven per-cluster lists the loop accumulates,
plus a ghost `members` field recording the working-set indices merged into
this cluster (anchor first) — only used to state partition invariants, the
seven real fields are maintained exactly as in the source. -/
structure Cluster where
  party_name : String
  aliases : List String
  party_types : List String
  addresses : List String
  case_types : List String
  years : List Int
  party_count : Nat
  members : List Nat
deriving DecidableEq, Repr

/-- `if x not in xs: xs.append(x)`. -/
def add_if_absent {α : Type} [DecidableEq α] (x : α) (xs : List α) : List α :=
  if x ∈ xs then xs else xs ++ [x]

/-- The cluster seeded from an anchor row (`party_aliases = []` etc.). -/
def init_cluster (i : Nat) (r : PartyRow) : Cluster :=
  { party_name := r.party_name
    aliases := []
    party_types := [r.party_type]
    addresses := [r.party_address]
    case_types := [r.case_type]
    years := [r.year]
    party_count := r.party_count
    members := [i] }

/-- Merging a matched candidate row into the cluster under construction. -/
def merge_row (cl : Cluster) (i2 : Nat) (r2 : PartyRow) : Cluster :=
  { cl with
    aliases := add_if_absent r2.party_name cl.aliases
    party_types := add_if_absent r2.party_type cl.party_types
    addresses := add_if_absent r2.party_address cl.addresses
    case_types := add_if_absent r2.case_type cl.case_types
    years := add_if_absent r2.year cl.years
    party_count := cl.party_count + r2.party_count
    members := cl.members ++ [i2] }

/-- The inner loop `for index_2, row_2 in test_set.iterrows()`: skip consumed
rows, score the rest against the anchor, and on `score >= .8` consume and
merge.  Returns the updated `removed` list, the finished cluster, and the
updated `fuzzy_match_count`. -/
def inner_loop (algorithm anchor_name : String) :
    List (Nat × PartyRow) → List Nat → Cluster → Nat → List Nat × Cluster × Nat
  | [], removed, cl, fm => (removed, cl, fm)
  | (i2, r2) :: rest, removed, cl, fm =>
    if i2 ∈ removed then inner_loop algorithm anchor_name rest removed cl fm
    else if match_test algorithm anchor_name r2.party_name then
      inner_loop algorithm anchor_name rest (removed ++ [i2]) (merge_row cl i2 r2) (fm + 1)
    else inner_loop algorithm anchor_name rest removed cl fm

/-- The outer loop `for index, row in self.data.iterrows()`: every row not
yet in `removed` becomes the anchor of a new cluster; its candidate window is
filtered from the whole working set by the blocking key.  State:
`(clusters so far, removed, fuzzy_match_count)`. -/
def outer_loop (algorithm : String) (allRows : List (Nat × PartyRow)) :
    List (Nat × PartyRow) → List Nat → List Cluster → Nat →
      List Cluster × List Nat × Nat
  | [], removed, acc, fm => (acc, removed, fm)
  | (i, r) :: rest, removed, acc, fm =>
    if i ∈ removed then outer_loop algorithm allRows rest removed acc fm
    else
      let testSet := allRows.filter (fun p => in_window r.position p.2.position)
      let res := inner_loop algorithm r.party_name testSet (removed ++ [i])
        (init_cluster i r) fm
      outer_loop algorithm allRows rest res.1 (acc ++ [res.2.1]) res.2.2

/-- The observable results of one `RemoveRepetitiveNames` run. -/
structure RunResult where
  clusters : List Cluster
  dropped_duplicates_count : Nat
  fuzzy_match_count : Nat
deriving Repr

/-- The whole engine run: working set, `dropped_duplicates_count = size -
new_size` (the code subtracts from the `size` parameter, not from the number
of rows actually loaded), then the greedy cluster builder. -/
def run (cfg : Config) (input : List PartyRow) : RunResult :=
  let ws := working_set cfg input
  let res := outer_loop cfg.algorithm ws.enum ws.enum [] [] 0
  { clusters := res.1
    dropped_duplicates_count := cfg.size - ws.length
    fuzzy_match_count := res.2.2 }


/-- Scenario A's two input records: raw names `"ABC Apartments LLC"` (count 3)
and `"ABC Apts LLC"` (count 5). -/
def scenarioA_input : List PartyRow :=
  [ { party_name := "ABC Apartments LLC", party_type := "plaintiff",
      party_address := "a1", case_type := "c1", year := 2020, party_count := 3 },
    { party_name := "ABC Apts LLC", party_type := "defendant",
      party_address := "a2", case_type := "c2", year := 2021, party_count := 5 } ]

/-- C6.  Scenario A: with abbreviation map `{"apartments": "apt"}` and
stopword set `{"llc"}`, `"ABC Apartments LLC"` and `"ABC Apts LLC"`
normalise to `"abc apt"` and `"abc apts"` — distinct, so both survive the
exact-merge pass (working set of size 2) — and under the `'levenshtein'`
algorithm their score is 93/100 > 0.8, so the cluster builder merges them
into a single cluster with total count 3 + 5 = 8 and one recorded match. -/
theorem scenarioA_merges :
    normalize_name scenarioA_cfg "ABC Apartments LLC" = "abc apt" ∧
    normalize_name scenarioA_cfg "ABC Apts LLC" = "abc apts" ∧
    (working_set scenarioA_cfg scenarioA_input).length = 2 ∧
    score_of "levenshtein" "abc apt" "abc apts" = 93 / 100 ∧
    (4 / 5 : ℚ) < 93 / 100 ∧
    (run scenarioA_cfg scenarioA_input).clusters.map
        (fun c => (c.party_name, c.aliases, c.party_count)) =
      [("abc apt", ["abc apts"], 8)] ∧
    (run scenarioA_cfg scenarioA_input).fuzzy_match_count = 1 := by
  refine ⟨by decide, by decide, by decide, ?_, by norm_num, by decide, by decide⟩
  have h1 : ("levenshtein" : String) ≠ "seq" := by decide
  have h93 : levenshtein "abc apt" "abc apts" = 93 := by decide
  simp only [score_of, if_neg h1, if_pos rfl, h93]
  norm_num

/-- The configuration of the stopword counterexample: the caller configures
the stopword set `["foo"]`. -/
def foo_stop_cfg : Config := { stopwords := some ["foo"] }

/-- C4.  The stopword step does not honour the configured set: with the
configured stopword set `["foo"]`, the name `"foo llc"` normalises to
`"foo"` — the token `"llc"`, which is NOT in the configured set but is in
the module-level global `stopwords` list, is dropped, while the token
`"foo"`, which IS in the configured set, is kept.  (`remove_stopwords`
reads the global `stopwords` name instead of `self.stopwords`; the
configured set only decides *whether* the step runs.)  Dropping exactly the
configured tokens would instead produce `"llc"`. -/
theorem stopword_filter_uses_global_list :
    truthy_stop foo_stop_cfg.stopwords = true ∧
    normalize_name foo_stop_cfg "foo llc" = "foo" ∧
    normalize_name foo_stop_cfg "foo llc" ≠ "llc" := by
  refine ⟨by decide, by decide, by decide⟩

/-- A run capped at `size = 5`. -/
def size5_cfg : Config := { size := 5 }

/-- A single-record input, strictly smaller than the `size` cap. -/
def single_record_input : List PartyRow :=
  [ { party_name := "acme", party_type := "plaintiff", party_address := "a",
      case_type := "c", year := 2020, party_count := 1 } ]

/-- C5.  `dropped_duplicates_count` is computed as `size - new_size` from the
`size` *parameter*, not from the number of rows actually loaded: on a
one-record input (no duplicates at all) with `size = 5` the metric reports
4, while the true number of rows removed by the exact-merge pass —
processed rows minus surviving rows — is 0. -/
theorem dropped_duplicates_overcounts_short_input :
    (run size5_cfg single_record_input).dropped_duplicates_count = 4 ∧
    (single_record_input.take size5_cfg.size).length -
      (working_set size5_cfg single_record_input).length = 0 := by
  refine ⟨by decide, by decide⟩


/-- The executable match test agrees with `score >= .8` on the rational
score for every algorithm selector: the builder's integer comparisons are
exactly the threshold comparison on `score_of`. -/
theorem match_test_eq_threshold (algorithm a b : String) :
    match_test algorithm a b = true ↔ (4 / 5 : ℚ) ≤ score_of algorithm a b := by
  unfold match_test score_of
  by_cases hseq : algorithm = "seq"
  · have hlev : algorithm ≠ "levenshtein" := by rw [hseq]; decide
    rw [if_neg hlev, if_pos hseq]
    unfold seq
    by_cases h0 : a.length + b.length = 0
    · rw [if_pos h0, h0]
      norm_num
    · rw [if_neg h0]
      have hpos : (0 : ℚ) < ((a.length + b.length : Nat) : ℚ) := by
        exact_mod_cast Nat.pos_of_ne_zero h0
      rw [div_le_div_iff (by norm_num) hpos, decide_eq_true_eq]
      constructor
      · intro h
        push_cast
        calc (4 : ℚ) * (a.length + b.length) ≤ (10 * match_size a b : Nat) := by
              exact_mod_cast h
          _ = 2 * match_size a b * 5 := by push_cast; ring
      · intro h
        have : (4 * (a.length + b.length) : ℚ) ≤ (10 * match_size a b : Nat) := by
          calc (4 * (a.length + b.length) : ℚ) ≤ 2 * match_size a b * 5 := by
                push_cast at h ⊢; linarith
            _ = ((10 * match_size a b : Nat) : ℚ) := by push_cast; ring
        exact_mod_cast this
  · by_cases hlev : algorithm = "levenshtein"
    · rw [if_pos hlev, if_neg hseq, if_pos hlev, decide_eq_true_eq]
      rw [div_le_div_iff (by norm_num) (by norm_num : (0:ℚ) < 100)]
      constructor
      · intro h
        have : (80 : ℚ) ≤ (levenshtein a b : Nat) := by exact_mod_cast h
        linarith
      · intro h
        have : (80 : ℚ) ≤ (levenshtein a b : Nat) := by linarith
        exact_mod_cast this
    · rw [if_neg hlev, if_neg hseq, if_neg hlev]
      unfold seq
      by_cases h0 : a.length + b.length = 0
      · rw [if_pos h0, h0]
        norm_num
      · rw [if_neg h0]
        have hpos : (0 : ℚ) < ((a.length + b.length : Nat) : ℚ) := by
          exact_mod_cast Nat.pos_of_ne_zero h0
        rw [div_le_div_iff (by norm_num) hpos, decide_eq_true_eq]
        constructor
        · intro h
          push_cast
          have : ((4 * (a.length + b.length) : Nat) : ℚ) ≤ (10 * match_size a b : Nat) := by
            exact_mod_cast h
          push_cast at this
          linarith
        · intro h
          have : (4 * (a.length + b.length) : ℚ) ≤ ((10 * match_size a b : Nat) : ℚ) := by
            push_cast; push_cast at h; linarith
          exact_mod_cast this

/-- C9.  Any algorithm selector other than `'seq'` and `'levenshtein'`
falls through the bare `else` branch to the Ratcliff/Obershelp scorer: the
returned score is exactly `seq a b`, and the builder's match test behaves
exactly as it does for `'seq'`. -/
theorem unknown_algorithm_falls_back_to_seq (algorithm a b : String)
    (hseq : algorithm ≠ "seq") (hlev : algorithm ≠ "levenshtein") :
    score_of algorithm a b = seq a b ∧
    match_test algorithm a b = match_test "seq" a b := by
  constructor
  · unfold score_of
    rw [if_neg hseq, if_neg hlev]
  · unfold match_test
    rw [if_neg hlev, if_neg (by decide : ("seq" : String) ≠ "levenshtein")]

/-- Witness for C9 at the concrete selector `"edit-ratio"`. -/
theorem unknown_algorithm_falls_back_to_seq_witness :
    (("edit-ratio" : String) ≠ "seq" ∧ ("edit-ratio" : String) ≠ "levenshtein") ∧
    (score_of "edit-ratio" "abc" "abd" = seq "abc" "abd" ∧
      match_test "edit-ratio" "abc" "abd" = match_test "seq" "abc" "abd") :=
  ⟨⟨by decide, by decide⟩,
    unknown_algorithm_falls_back_to_seq "edit-ratio" "abc" "abd"
      (by decide) (by decide)⟩


/-- The `position` column of the working set, as the code materialises it
(one `word_sum + word_length*33` value per working row, in row order). -/
def position_column (cfg : Config) (input : List PartyRow) : List Int :=
  (working_set cfg input).map (fun r => r.position)

/-- Modelled from the spec's words, for comparison with `sum_string`: the
"alphabetic ordinal value, A=1…Z=26" of a character (case-insensitive, 0 for
non-alphabetic characters). -/
def spec_letter_val (c : Char) : Int :=
  if 'a' ≤ c ∧ c ≤ 'z' then (c.toNat : Int) - 96
  else if 'A' ≤ c ∧ c ≤ 'Z' then (c.toNat : Int) - 64
  else 0

/-- Modelled from the spec's words: `letter_sum` with A=1…Z=26 and
non-alphabetic characters contributing 0. -/
def spec_letter_sum (s : String) : Int :=
  (s.toList.map spec_letter_val).sum

/-- Modelled from the spec's words: `block_key = letter_sum + length * 33`
with the spec's letter values. -/
def spec_block_key (s : String) : Int :=
  spec_letter_sum s + 33 * (s.length : Int)

/-- A one-record input whose name normalises to `"a"`. -/
def single_a_input : List PartyRow :=
  [ { party_name := "A", party_type := "p", party_address := "ad",
      case_type := "c", year := 2020, party_count := 1 } ]

/-- C3 counterexample.  The code's `position` column does NOT equal the
spec's `letter_sum + length*33` with A=1…Z=26: for the working name `"a"`
the code computes `(ord('a') - 64) + 1*33 = 66`, while the spec formula
gives `1 + 33 = 34` (the code subtracts 64 from the code point of every
character of the already-lowercased name, so `'a'` weighs 33, not 1). -/
theorem position_column_ne_spec_block_key :
    position_column {} single_a_input = [66] ∧
    spec_block_key "a" = 34 ∧
    position_column {} single_a_input ≠ [spec_block_key "a"] := by
  refine ⟨by decide, by decide, by decide⟩

/-- The number of lowercase-letter characters in a list. -/
def count_lower : List Char → Nat
  | [] => 0
  | c :: cs => (if 'a' ≤ c ∧ c ≤ 'z' then 1 else 0) + count_lower cs

/-- The number of space characters in a list. -/
def count_sp : List Char → Nat
  | [] => 0
  | c :: cs => (if c = ' ' then 1 else 0) + count_sp cs

/-- C3 amended.  Every working row's `position` equals
`sum_string(name) + 33*length(name)` where `sum_string` adds
`ord(c) - 64` for every character; on names made of lowercase letters and
spaces (the shape normalisation produces) this equals the spec's
`letter_sum + 33*length` SHIFTED by `+32` per letter and `-32` per space:
`position = spec_block_key + 32*(number of letters) - 32*(number of
spaces)`. -/
theorem position_column_formula (cfg : Config) (input : List PartyRow)
    (r : PartyRow) (hr : r ∈ working_set cfg input) :
    r.position = position_of r.party_name ∧
    ((∀ c ∈ r.party_name.toList, ('a' ≤ c ∧ c ≤ 'z') ∨ c = ' ') →
      r.position = spec_block_key r.party_name
        + 32 * (count_lower r.party_name.toList : Int)
        - 32 * (count_sp r.party_name.toList : Int)) := by
  have hpos : r.position = position_of r.party_name := by
    unfold working_set with_positions at hr
    rcases List.mem_map.mp hr with ⟨r0, _, rfl⟩
    rfl
  refine ⟨hpos, fun hchars => ?_⟩
  rw [hpos]
  unfold position_of spec_block_key sum_string spec_letter_sum
  have key : ∀ (l : List Char), (∀ c ∈ l, ('a' ≤ c ∧ c ≤ 'z') ∨ c = ' ') →
      ((l.map (fun c => (c.toNat : Int) - 64)).sum)
        = (l.map spec_letter_val).sum
          + 32 * (count_lower l : Int) - 32 * (count_sp l : Int) := by
    intro l hl
    induction l with
    | nil => simp [count_lower, count_sp]
    | cons c cs ih =>
      have hc := hl c (List.mem_cons_self c cs)
      have ihcs := ih (fun d hd => hl d (List.mem_cons_of_mem c hd))
      rcases hc with ⟨h1, h2⟩ | h3
      · have hlow : ('a' ≤ c ∧ c ≤ 'z') := ⟨h1, h2⟩
        have hnotsp : ¬ (c = ' ') := by
          intro h
          subst h
          exact absurd h1 (by decide)
        have hval : spec_letter_val c = (c.toNat : Int) - 96 := by
          unfold spec_letter_val
          rw [if_pos hlow]
        simp only [List.map_cons, List.sum_cons, count_lower, count_sp,
          if_pos hlow, if_neg hnotsp, hval]
        push_cast
        linarith [ihcs]
      · subst h3
        have hval : spec_letter_val ' ' = 0 := by decide
        have hsp : ((' '.toNat : Nat) : Int) - 64 = -32 := by decide
        simp only [List.map_cons, List.sum_cons, count_lower, count_sp,
          if_neg (by decide : ¬ ('a' ≤ ' ' ∧ ' ' ≤ 'z')), if_pos rfl, hval, hsp]
        push_cast
        omega
  have := key r.party_name.toList hchars
  omega

/-- Witness for C3 amended: the working row of the one-record run, whose
name `"a"` is all lowercase. -/
theorem position_column_formula_witness :
    ({ party_name := "a", party_type := "p", party_address := "ad",
       case_type := "c", year := 2020, party_count := 1,
       position := 66 } : PartyRow) ∈ working_set {} single_a_input ∧
    (∀ c ∈ ("a" : String).toList, ('a' ≤ c ∧ c ≤ 'z') ∨ c = ' ') ∧
    ({ party_name := "a", party_type := "p", party_address := "ad",
       case_type := "c", year := 2020, party_count := 1,
       position := 66 } : PartyRow).position = position_of "a" :=
  ⟨by decide, by decide,
    (position_column_formula {} single_a_input _ (by decide)).1⟩


/-- Canonical-whitespace checker: every whitespace character is a plain
space and no two whitespace characters are adjacent. -/
def collapsed_ok : List Char → Bool
  | [] => true
  | [c] => !is_ws c || c = ' '
  | c :: d :: cs => (!is_ws c || (c = ' ' && !is_ws d)) && collapsed_ok (d :: cs)

/-- After a run has been entered (`prevWS = true`), the next emitted
character is never whitespace. -/
theorem collapse_aux_true_head :
    ∀ (cs : List Char) (d : Char) (ds : List Char),
      collapse_aux true cs = d :: ds → is_ws d = false := by
  intro cs
  induction cs with
  | nil => intro d ds h; simp [collapse_aux] at h
  | cons c cs' ih =>
    intro d ds h
    by_cases hws : is_ws c
    · rw [collapse_aux, if_pos hws] at h
      exact ih d ds h
    · rw [collapse_aux, if_neg hws] at h
      rw [List.cons.injEq] at h
      rw [← h.1]
      exact Bool.not_eq_true _ ▸ (by simpa using hws)

/-- Every output of the whitespace-collapsing step is whitespace-canonical. -/
theorem collapse_aux_collapsed_ok :
    ∀ (l : List Char) (b : Bool), collapsed_ok (collapse_aux b l) = true := by
  intro l
  induction l with
  | nil => intro b; rfl
  | cons c cs ih =>
    intro b
    by_cases hws : is_ws c
    · rw [collapse_aux, if_pos hws]
      cases b with
      | true => exact ih true
      | false =>
        rcases hX : collapse_aux true cs with _ | ⟨d, ds⟩
        · decide
        · have hd := collapse_aux_true_head cs d ds hX
          have := ih true
          rw [hX] at this
          simp [collapsed_ok, hd, this]
    · rw [collapse_aux, if_neg hws]
      rcases hX : collapse_aux false cs with _ | ⟨d, ds⟩
      · simp [collapsed_ok, hws]
      · have := ih false
        rw [hX] at this
        simp [collapsed_ok, hws, this]

/-- The whitespace-collapsing step is the identity on whitespace-canonical
strings. -/
theorem collapse_aux_id :
    ∀ (l : List Char), collapsed_ok l = true → collapse_aux false l = l
  | [], _ => rfl
  | [c], h => by
    by_cases hws : is_ws c
    · have hc : c = ' ' := by
        simp [collapsed_ok, hws] at h
        exact h
      subst hc
      rfl
    · simp [collapse_aux, hws]
  | c :: d :: cs, h => by
    have hsplit : (!is_ws c || (c = ' ' && !is_ws d)) = true ∧
        collapsed_ok (d :: cs) = true := by
      simpa [collapsed_ok, Bool.and_eq_true] using h
    have ihtail := collapse_aux_id (d :: cs) hsplit.2
    by_cases hws : is_ws c
    · have hc : c = ' ' ∧ is_ws d = false := by
        rcases Bool.or_eq_true _ _ |>.mp hsplit.1 with h1 | h2
        · exact absurd hws (by simpa using h1)
        · rcases Bool.and_eq_true _ _ |>.mp h2 with ⟨ha, hb⟩
          exact ⟨by simpa using ha, by simpa using hb⟩
      rw [collapse_aux, if_pos hws]
      rw [collapse_aux, if_neg (by simp [hc.2])] at ihtail
      rw [List.cons.injEq] at ihtail
      rw [hc.1]
      simp [collapse_aux, hc.2, ihtail.2]
    · rw [collapse_aux, if_neg hws, ihtail]

/-- C7 counterexample.  The output of the whitespace step is NOT trimmed:
on the raw name `" abc"` the punctuation stage removes nothing and the
whitespace stage keeps a single leading space, which is whitespace. -/
theorem whitespace_stage_keeps_leading_space :
    (collapse_ws (remove_punc_num true (" abc").toList)).head? = some ' ' ∧
    is_ws ' ' = true ∧
    normalize_name {} " abc" = " abc" := by
  refine ⟨by decide, by decide, by decide⟩

/-- C7 amended.  `normalize_name` applies its stages in the fixed order
punctuation/optional-digit removal, whitespace handling, lowercasing,
optional stopword removal, optional abbreviation substitution; after the
whitespace step every whitespace character is a single plain space with no
two adjacent (but the result is NOT trimmed: a leading or trailing run
survives as one space). -/
theorem pipeline_stage_order_and_single_spacing (cfg : Config) (s : String) :
    normalize_name cfg s = String.mk (abb_stage cfg (stop_stage cfg
      (lower_name (collapse_ws (remove_punc_num cfg.remove_numbers s.toList))))) ∧
    collapsed_ok (collapse_ws (remove_punc_num cfg.remove_numbers s.toList)) = true :=
  ⟨rfl, collapse_aux_collapsed_ok _ false⟩


/-- The kept rows of the exact-merge pass have pairwise-distinct names, none
of them in `seen`. -/
theorem dedup_aux_names_nodup :
    ∀ (rows : List PartyRow) (seen : List String),
      ((dedup_aux seen rows).map (fun r => r.party_name)).Nodup ∧
      (∀ n ∈ (dedup_aux seen rows).map (fun r => r.party_name), n ∉ seen) := by
  intro rows
  induction rows with
  | nil => intro seen; exact ⟨List.nodup_nil, by simp [dedup_aux]⟩
  | cons r rs ih =>
    intro seen
    by_cases h : r.party_name ∈ seen
    · rw [dedup_aux, if_pos h]
      exact ih seen
    · rw [dedup_aux, if_neg h]
      obtain ⟨ih1, ih2⟩ := ih (r.party_name :: seen)
      refine ⟨?_, ?_⟩
      · simp only [List.map_cons, List.nodup_cons]
        exact ⟨fun hm => (ih2 _ hm) (List.mem_cons_self _ _), ih1⟩
      · intro n hn
        simp only [List.map_cons, List.mem_cons] at hn
        rcases hn with rfl | hn
        · exact h
        · exact fun hseen => (ih2 n hn) (List.mem_cons_of_mem _ hseen)

/-- Every input row's name survives the exact-merge pass (on some kept
row), provided it was not already seen. -/
theorem dedup_aux_covers :
    ∀ (rows : List PartyRow) (seen : List String) (r : PartyRow),
      r ∈ rows → r.party_name ∉ seen →
      r.party_name ∈ (dedup_aux seen rows).map (fun x => x.party_name) := by
  intro rows
  induction rows with
  | nil => intro seen r h; cases h
  | cons r0 rs ih =>
    intro seen r hr hseen
    rcases List.mem_cons.mp hr with rfl | hr
    · rw [dedup_aux, if_neg hseen]
      simp
    · by_cases h : r0.party_name ∈ seen
      · rw [dedup_aux, if_pos h]
        exact ih seen r hr hseen
      · rw [dedup_aux, if_neg h]
        by_cases he : r.party_name = r0.party_name
        · simp [he]
        · have hnotin : r.party_name ∉ r0.party_name :: seen := by
            simp [he, hseen]
          have := ih (r0.party_name :: seen) r hr hnotin
          simp only [List.map_cons, List.mem_cons]
          exact Or.inr this

/-- Unfolding `sum_counts_for` over a cons cell. -/
theorem sum_counts_for_cons (r : PartyRow) (rs : List PartyRow) (nm : String) :
    sum_counts_for (r :: rs) nm =
      (if r.party_name = nm then r.party_count else 0) + sum_counts_for rs nm := by
  unfold sum_counts_for
  by_cases h : r.party_name = nm
  · simp [List.filter_cons, h]
  · simp [List.filter_cons, h]

/-- Adding one row to the frame adds its count to exactly one name bucket
(its own), provided the bucket list is duplicate-free and covers it. -/
theorem sum_bump (r : PartyRow) (rs : List PartyRow) :
    ∀ (names : List String), names.Nodup → r.party_name ∈ names →
      (names.map (fun n => sum_counts_for (r :: rs) n)).sum =
        r.party_count + (names.map (fun n => sum_counts_for rs n)).sum := by
  intro names
  induction names with
  | nil => intro _ h; cases h
  | cons n ns ih =>
    intro hnd hmem
    rcases List.mem_cons.mp hmem with heq | hmem2
    · have hnotin : r.party_name ∉ ns := heq ▸ (List.nodup_cons.mp hnd).1
      have hpoint : ∀ m ∈ ns, sum_counts_for (r :: rs) m = sum_counts_for rs m := by
        intro m hm
        rw [sum_counts_for_cons, if_neg, Nat.zero_add]
        intro he
        exact hnotin (he ▸ hm)
      simp only [List.map_cons, List.sum_cons]
      rw [sum_counts_for_cons, if_pos heq, List.map_congr_left hpoint,
        Nat.add_assoc]
    · have hne : r.party_name ≠ n := by
        intro he
        exact (List.nodup_cons.mp hnd).1 (he ▸ hmem2)
      simp only [List.map_cons, List.sum_cons]
      rw [sum_counts_for_cons, if_neg hne, ih (List.nodup_cons.mp hnd).2 hmem2]
      omega

/-- Summing each name bucket's total over a duplicate-free covering list of
names recovers the total count of the frame. -/
theorem bucket_sum :
    ∀ (rows : List PartyRow) (names : List String), names.Nodup →
      (∀ r ∈ rows, r.party_name ∈ names) →
      (names.map (fun n => sum_counts_for rows n)).sum =
        (rows.map (fun r => r.party_count)).sum := by
  intro rows
  induction rows with
  | nil =>
    intro names _ _
    have h0 : ∀ n ∈ names, sum_counts_for [] n = (fun _ : String => 0) n := by
      intro n _
      rfl
    rw [List.map_congr_left h0]
    simp
  | cons r rs ih =>
    intro names hnd hcov
    rw [sum_bump r rs names hnd (hcov r (List.mem_cons_self _ _))]
    rw [ih names hnd (fun x hx => hcov x (List.mem_cons_of_mem _ hx))]
    simp

/-- C1's first half, at the pass level: the exact-merge pass conserves the
total count. -/
theorem exact_merge_conserves (rows : List PartyRow) :
    ((exact_merge rows).map (fun r => r.party_count)).sum =
      (rows.map (fun r => r.party_count)).sum := by
  unfold exact_merge
  rw [List.map_map]
  show (((dedup_by_name rows)).map (fun r => sum_counts_for rows r.party_name)).sum = _
  have hsplit : ((dedup_by_name rows)).map (fun r => sum_counts_for rows r.party_name)
      = (((dedup_by_name rows)).map (fun r => r.party_name)).map
          (fun n => sum_counts_for rows n) := by
    rw [List.map_map]
    rfl
  rw [hsplit]
  exact bucket_sum rows _ (dedup_aux_names_nodup rows []).1
    (fun r hr => dedup_aux_covers rows [] r hr (List.not_mem_nil _))

/-- Post-exact-merge working names are pairwise distinct. -/
theorem working_set_names_nodup (cfg : Config) (input : List PartyRow) :
    ((working_set cfg input).map (fun r => r.party_name)).Nodup := by
  unfold working_set with_positions
  rw [List.map_map]
  show ((exact_merge _).map (fun r => r.party_name)).Nodup
  unfold exact_merge
  rw [List.map_map]
  show ((dedup_by_name _).map (fun r => r.party_name)).Nodup
  exact (dedup_aux_names_nodup _ []).1

/-- The working set's total count equals the processed input's total count
(normalisation, exact merge and the position column all conserve counts). -/
theorem working_set_counts (cfg : Config) (input : List PartyRow) :
    ((working_set cfg input).map (fun r => r.party_count)).sum =
      ((input.take cfg.size).map (fun r => r.party_count)).sum := by
  unfold working_set with_positions
  rw [List.map_map]
  show ((exact_merge ((input.take cfg.size).map (norm_row cfg))).map
    (fun r => r.party_count)).sum = _
  rw [exact_merge_conserves]
  rw [List.map_map]
  rfl


/-- Master specification of the inner candidate loop.  Under the working-set
invariants (candidates come from `allRows`, whose names determine indices
injectively; the cluster's aliases are exactly the names of the already
merged pairs `MS`, all of which are consumed), the loop consumes some list
`ps` of fresh candidate pairs: `removed`, `members` and `aliases` each grow
by exactly those pairs, the cluster count grows by their total count, and
`fuzzy_match_count` grows by their number. -/
theorem inner_loop_spec (algorithm nm : String) (allRows : List (Nat × PartyRow))
    (Inj : ∀ p ∈ allRows, ∀ q ∈ allRows,
      p.2.party_name = q.2.party_name → p.1 = q.1) :
    ∀ (ts : List (Nat × PartyRow)) (removed : List Nat) (cl : Cluster) (fm : Nat)
      (MS : List (Nat × PartyRow)),
      (∀ p ∈ ts, p ∈ allRows) →
      cl.aliases = MS.map (fun p => p.2.party_name) →
      (∀ p ∈ MS, p ∈ allRows) →
      (∀ p ∈ MS, p.1 ∈ removed) →
      ∃ ps : List (Nat × PartyRow),
        (inner_loop algorithm nm ts removed cl fm).1 = removed ++ ps.map Prod.fst ∧
        (inner_loop algorithm nm ts removed cl fm).2.1.members
          = cl.members ++ ps.map Prod.fst ∧
        (inner_loop algorithm nm ts removed cl fm).2.1.party_count
          = cl.party_count + (ps.map (fun p => p.2.party_count)).sum ∧
        (inner_loop algorithm nm ts removed cl fm).2.1.aliases
          = cl.aliases ++ ps.map (fun p => p.2.party_name) ∧
        (inner_loop algorithm nm ts removed cl fm).2.2 = fm + ps.length ∧
        (∀ p ∈ ps, p ∈ ts) ∧
        (∀ p ∈ ps, p.1 ∉ removed) ∧
        (ps.map Prod.fst).Nodup := by
  intro ts
  induction ts with
  | nil =>
    intro removed cl fm MS _ _ _ _
    exact ⟨[], by simp [inner_loop]⟩
  | cons p0 rest ih =>
    obtain ⟨i2, r2⟩ := p0
    intro removed cl fm MS hts hal hMSall hMSrem
    have htsrest : ∀ p ∈ rest, p ∈ allRows :=
      fun p hp => hts p (List.mem_cons_of_mem _ hp)
    by_cases hmem : i2 ∈ removed
    · rw [show inner_loop algorithm nm ((i2, r2) :: rest) removed cl fm
          = inner_loop algorithm nm rest removed cl fm by
        rw [inner_loop, if_pos hmem]]
      obtain ⟨ps, h⟩ := ih removed cl fm MS htsrest hal hMSall hMSrem
      exact ⟨ps, h.1, h.2.1, h.2.2.1, h.2.2.2.1, h.2.2.2.2.1,
        fun p hp => List.mem_cons_of_mem _ (h.2.2.2.2.2.1 p hp),
        h.2.2.2.2.2.2.1, h.2.2.2.2.2.2.2⟩
    · by_cases hsc : match_test algorithm nm r2.party_name = true
      · rw [show inner_loop algorithm nm ((i2, r2) :: rest) removed cl fm
            = inner_loop algorithm nm rest (removed ++ [i2])
                (merge_row cl i2 r2) (fm + 1) by
          rw [inner_loop, if_neg hmem, if_pos hsc]]
        have hnotal : r2.party_name ∉ cl.aliases := by
          rw [hal]
          intro hin
          obtain ⟨p, hpMS, hpname⟩ := List.mem_map.mp hin
          have : p.1 = i2 := Inj p (hMSall p hpMS) (i2, r2)
            (hts _ (List.mem_cons_self _ _)) hpname
          exact hmem (this ▸ hMSrem p hpMS)
        have hmr_al : (merge_row cl i2 r2).aliases
            = (MS ++ [(i2, r2)]).map (fun p => p.2.party_name) := by
          unfold merge_row add_if_absent
          rw [if_neg hnotal]
          simp [hal]
        obtain ⟨ps, h1, h2, h3, h4, h5, h6, h7, h8⟩ :=
          ih (removed ++ [i2]) (merge_row cl i2 r2) (fm + 1) (MS ++ [(i2, r2)])
            htsrest hmr_al
            (by
              intro p hp
              rcases List.mem_append.mp hp with hp | hp
              · exact hMSall p hp
              · rw [List.mem_singleton.mp hp]
                exact hts _ (List.mem_cons_self _ _))
            (by
              intro p hp
              rcases List.mem_append.mp hp with hp | hp
              · exact List.mem_append_left _ (hMSrem p hp)
              · rw [List.mem_singleton.mp hp]
                simp)
        refine ⟨(i2, r2) :: ps, ?_, ?_, ?_, ?_, ?_, ?_, ?_, ?_⟩
        · rw [h1]
          simp
        · rw [h2]
          unfold merge_row
          simp
        · rw [h3]
          unfold merge_row
          simp
          omega
        · rw [h4, hmr_al, hal]
          simp
        · rw [h5]
          simp
          omega
        · intro p hp
          rcases List.mem_cons.mp hp with rfl | hp
          · exact List.mem_cons_self _ _
          · exact List.mem_cons_of_mem _ (h6 p hp)
        · intro p hp
          rcases List.mem_cons.mp hp with rfl | hp
          · exact hmem
          · intro hin
            exact (h7 p hp) (List.mem_append_left _ hin)
        · simp only [List.map_cons, List.nodup_cons]
          refine ⟨?_, h8⟩
          intro hin
          obtain ⟨p, hpps, hpfst⟩ := List.mem_map.mp hin
          exact (h7 p hpps) (hpfst ▸ List.mem_append_right _ (List.mem_singleton_self _))
      · rw [show inner_loop algorithm nm ((i2, r2) :: rest) removed cl fm
            = inner_loop algorithm nm rest removed cl fm by
          rw [inner_loop, if_neg hmem, if_neg hsc]]
        obtain ⟨ps, h⟩ := ih removed cl fm MS htsrest hal hMSall hMSrem
        exact ⟨ps, h.1, h.2.1, h.2.2.1, h.2.2.2.1, h.2.2.2.2.1,
          fun p hp => List.mem_cons_of_mem _ (h.2.2.2.2.2.1 p hp),
          h.2.2.2.2.2.2.1, h.2.2.2.2.2.2.2⟩


/-- Master specification of the outer anchor loop.  Starting from a
duplicate-free `removed` list and an accumulator whose alias total matches
`fm`, the loop consumes some list `PS` of fresh pairs of the working set:
the final `removed` list is the old one extended by exactly their indices,
the new clusters' ghost member lists flatten to exactly those indices (in
order), the new clusters' counts add up to exactly their total count, the
final `fuzzy_match_count` equals the total number of aliases over all
clusters produced, and every row of `rest` ends up consumed. -/
theorem outer_loop_spec (algorithm : String) (allRows : List (Nat × PartyRow))
    (Inj : ∀ p ∈ allRows, ∀ q ∈ allRows,
      p.2.party_name = q.2.party_name → p.1 = q.1) :
    ∀ (rest : List (Nat × PartyRow)) (removed : List Nat) (acc : List Cluster)
      (fm : Nat),
      (∀ p ∈ rest, p ∈ allRows) →
      removed.Nodup →
      fm = (acc.map (fun c => c.aliases.length)).sum →
      ∃ PS : List (Nat × PartyRow),
        (outer_loop algorithm allRows rest removed acc fm).2.1
          = removed ++ PS.map Prod.fst ∧
        ((outer_loop algorithm allRows rest removed acc fm).1.map
            (fun c => c.members)).flatten
          = (acc.map (fun c => c.members)).flatten ++ PS.map Prod.fst ∧
        ((outer_loop algorithm allRows rest removed acc fm).1.map
            (fun c => c.party_count)).sum
          = (acc.map (fun c => c.party_count)).sum
            + (PS.map (fun p => p.2.party_count)).sum ∧
        (outer_loop algorithm allRows rest removed acc fm).2.2
          = ((outer_loop algorithm allRows rest removed acc fm).1.map
              (fun c => c.aliases.length)).sum ∧
        (∀ p ∈ PS, p ∈ allRows) ∧
        (∀ p ∈ PS, p.1 ∉ removed) ∧
        (PS.map Prod.fst).Nodup ∧
        (∀ p ∈ rest, p.1 ∈ (outer_loop algorithm allRows rest removed acc fm).2.1) := by
  intro rest
  induction rest with
  | nil =>
    intro removed acc fm _ _ hfm
    refine ⟨[], by simp [outer_loop, hfm]⟩
  | cons p0 rest' ih =>
    obtain ⟨i, r⟩ := p0
    intro removed acc fm hrest hnd hfm
    have hrest' : ∀ p ∈ rest', p ∈ allRows :=
      fun p hp => hrest p (List.mem_cons_of_mem _ hp)
    by_cases hmem : i ∈ removed
    · rw [show outer_loop algorithm allRows ((i, r) :: rest') removed acc fm
          = outer_loop algorithm allRows rest' removed acc fm by
        rw [outer_loop, if_pos hmem]]
      obtain ⟨PS, h1, h2, h3, h4, h5, h6, h7, h8⟩ :=
        ih removed acc fm hrest' hnd hfm
      refine ⟨PS, h1, h2, h3, h4, h5, h6, h7, ?_⟩
      intro p hp
      rcases List.mem_cons.mp hp with rfl | hp
      · rw [h1]
        exact List.mem_append_left _ hmem
      · exact h8 p hp
    · rw [show outer_loop algorithm allRows ((i, r) :: rest') removed acc fm
          = outer_loop algorithm allRows rest'
              (inner_loop algorithm r.party_name
                (allRows.filter (fun p => in_window r.position p.2.position))
                (removed ++ [i]) (init_cluster i r) fm).1
              (acc ++ [(inner_loop algorithm r.party_name
                (allRows.filter (fun p => in_window r.position p.2.position))
                (removed ++ [i]) (init_cluster i r) fm).2.1])
              (inner_loop algorithm r.party_name
                (allRows.filter (fun p => in_window r.position p.2.position))
                (removed ++ [i]) (init_cluster i r) fm).2.2 by
        rw [outer_loop, if_neg hmem]]
      set testSet := allRows.filter (fun p => in_window r.position p.2.position)
        with htestSet
      obtain ⟨ps, g1, g2, g3, g4, g5, g6, g7, g8⟩ :=
        inner_loop_spec algorithm r.party_name allRows Inj testSet
          (removed ++ [i]) (init_cluster i r) fm []
          (fun p hp => List.mem_of_mem_filter hp)
          rfl
          (by intro p hp; cases hp)
          (by intro p hp; cases hp)
      have hfresh : ∀ p ∈ ps, p.1 ∉ removed ∧ p.1 ≠ i := by
        intro p hp
        have := g7 p hp
        constructor
        · intro hin
          exact this (List.mem_append_left _ hin)
        · intro hin
          exact this (hin ▸ List.mem_append_right _ (List.mem_singleton_self _))
      have hnd2 : (inner_loop algorithm r.party_name testSet
          (removed ++ [i]) (init_cluster i r) fm).1.Nodup := by
        rw [g1, List.nodup_append]
        refine ⟨?_, g8, ?_⟩
        · rw [List.nodup_append]
          refine ⟨hnd, List.nodup_singleton _, ?_⟩
          intro x hx hx'
          rw [List.mem_singleton.mp hx'] at hx
          exact hmem hx
        · intro x hx hx'
          obtain ⟨p, hp, rfl⟩ := List.mem_map.mp hx'
          exact (g7 p hp) hx
      have hfm2 : (inner_loop algorithm r.party_name testSet
            (removed ++ [i]) (init_cluster i r) fm).2.2
          = ((acc ++ [(inner_loop algorithm r.party_name testSet
              (removed ++ [i]) (init_cluster i r) fm).2.1]).map
                (fun c => c.aliases.length)).sum := by
        rw [g5]
        simp only [List.map_append, List.map_cons, List.map_nil, List.sum_append,
          List.sum_cons, List.sum_nil, g4]
        simp [init_cluster, hfm]
      obtain ⟨PS', k1, k2, k3, k4, k5, k6, k7, k8⟩ :=
        ih (inner_loop algorithm r.party_name testSet
              (removed ++ [i]) (init_cluster i r) fm).1
           (acc ++ [(inner_loop algorithm r.party_name testSet
              (removed ++ [i]) (init_cluster i r) fm).2.1])
           (inner_loop algorithm r.party_name testSet
              (removed ++ [i]) (init_cluster i r) fm).2.2
           hrest' hnd2 hfm2
      refine ⟨((i, r) :: ps) ++ PS', ?_, ?_, ?_, ?_, ?_, ?_, ?_, ?_⟩
      · rw [k1, g1]
        simp
      · rw [k2]
        simp only [List.map_append, List.map_cons, List.map_nil,
          List.flatten_append, List.flatten_cons, List.flatten_nil, g2]
        simp [init_cluster]
      · rw [k3]
        simp only [List.map_append, List.map_cons, List.map_nil, List.sum_append,
          List.sum_cons, List.sum_nil, g3]
        simp [init_cluster]
        omega
      · exact k4
      · intro p hp
        rcases List.mem_append.mp hp with hp | hp
        · rcases List.mem_cons.mp hp with rfl | hp
          · exact hrest _ (List.mem_cons_self _ _)
          · exact List.mem_of_mem_filter (g6 p hp)
        · exact k5 p hp
      · intro p hp
        rcases List.mem_append.mp hp with hp | hp
        · rcases List.mem_cons.mp hp with rfl | hp
          · exact hmem
          · exact (hfresh p hp).1
        · intro hin
          have := k6 p hp
          rw [g1] at this
          exact this (List.mem_append_left _ (List.mem_append_left _ hin))
      · simp only [List.map_append, List.map_cons]
        rw [List.cons_append, List.nodup_cons, List.nodup_append]
        refine ⟨?_, ⟨g8, k7, ?_⟩⟩
        · intro hin
          rcases List.mem_append.mp hin with hin | hin
          · obtain ⟨p, hp, hpf⟩ := List.mem_map.mp hin
            exact (hfresh p hp).2 hpf
          · obtain ⟨p, hp, hpf⟩ := List.mem_map.mp hin
            have := k6 p hp
            rw [g1] at this
            exact this (hpf ▸ List.mem_append_left _
              (List.mem_append_right _ (List.mem_singleton_self _)))
        · intro x hx hx'
          obtain ⟨p, hp, rfl⟩ := List.mem_map.mp hx'
          have := k6 p hp
          rw [g1] at this
          exact this (List.mem_append_right _ hx)
      · intro p hp
        rcases List.mem_cons.mp hp with rfl | hp
        · rw [k1, g1]
          exact List.mem_append_left _ (List.mem_append_left _
            (List.mem_append_right _ (List.mem_singleton_self _)))
        · exact k8 p hp


/-- Within the working set, names determine indices: the enumerated working
rows have pairwise-distinct names (the exact-merge pass guarantees it). -/
theorem enum_names_inj (cfg : Config) (input : List PartyRow) :
    ∀ p ∈ (working_set cfg input).enum, ∀ q ∈ (working_set cfg input).enum,
      p.2.party_name = q.2.party_name → p.1 = q.1 := by
  intro p hp q hq h
  have hnd : (((working_set cfg input).enum).map
      (fun p => p.2.party_name)).Nodup := by
    have hmm : ((working_set cfg input).enum).map (fun p => p.2.party_name)
        = ((working_set cfg input).enum.map Prod.snd).map
            (fun r => r.party_name) := by
      rw [List.map_map]
      rfl
    rw [hmm, List.enum_map_snd]
    exact working_set_names_nodup cfg input
  rw [List.inj_on_of_nodup_map hnd hp hq h]

/-- Summary of one full run, derived from the loop specifications: the
clusters' total count equals the working set's total count, the reported
`fuzzy_match_count` equals the total number of aliases over all clusters,
and every working-set index belongs to exactly one cluster's ghost member
list. -/
theorem run_spec (cfg : Config) (input : List PartyRow) :
    ((run cfg input).clusters.map (fun c => c.party_count)).sum
      = ((working_set cfg input).map (fun r => r.party_count)).sum ∧
    (run cfg input).fuzzy_match_count
      = ((run cfg input).clusters.map (fun c => c.aliases.length)).sum ∧
    ∀ j, j < (working_set cfg input).length →
      (((run cfg input).clusters.map (fun c => c.members)).flatten).count j = 1 := by
  obtain ⟨PS, k1, k2, k3, k4, k5, k6, k7, k8⟩ :=
    outer_loop_spec cfg.algorithm (working_set cfg input).enum
      (enum_names_inj cfg input) (working_set cfg input).enum [] [] 0
      (fun p hp => hp) List.nodup_nil rfl
  have hfstnd : (((working_set cfg input).enum).map Prod.fst).Nodup := by
    rw [List.enum_map_fst]
    exact List.nodup_range _
  have hPSsub : ∀ p ∈ PS, p ∈ (working_set cfg input).enum := k5
  have hsub2 : ∀ p ∈ (working_set cfg input).enum, p ∈ PS := by
    intro p hp
    have hidx : p.1 ∈ [] ++ PS.map Prod.fst := k1 ▸ k8 p hp
    rw [List.nil_append] at hidx
    obtain ⟨q, hq, hqf⟩ := List.mem_map.mp hidx
    have : q = p := List.inj_on_of_nodup_map hfstnd (hPSsub q hq) hp hqf
    exact this ▸ hq
  have hperm : PS.Perm ((working_set cfg input).enum) := by
    refine List.Subperm.antisymm ?_ ?_
    · exact (List.Nodup.of_map _ k7).subperm hPSsub
    · exact (List.Nodup.of_map _ hfstnd).subperm hsub2
  have hcl : (run cfg input).clusters
      = (outer_loop cfg.algorithm (working_set cfg input).enum
          (working_set cfg input).enum [] [] 0).1 := rfl
  have hfmr : (run cfg input).fuzzy_match_count
      = (outer_loop cfg.algorithm (working_set cfg input).enum
          (working_set cfg input).enum [] [] 0).2.2 := rfl
  refine ⟨?_, ?_, ?_⟩
  · rw [hcl, k3]
    have h1 : (PS.map (fun p => p.2.party_count)).sum
        = (((working_set cfg input).enum).map (fun p => p.2.party_count)).sum :=
      (hperm.map _).sum_eq
    have h2 : (((working_set cfg input).enum).map (fun p => p.2.party_count))
        = ((working_set cfg input).enum.map Prod.snd).map
            (fun r => r.party_count) := by
      rw [List.map_map]
      rfl
    rw [h1, h2, List.enum_map_snd]
    simp
  · rw [hcl, hfmr, k4]
  · intro j hj
    rw [hcl, k2]
    simp only [List.map_nil, List.flatten_nil, List.nil_append]
    have hjin : j ∈ PS.map Prod.fst := by
      have : j ∈ ((working_set cfg input).enum).map Prod.fst := by
        rw [List.enum_map_fst]
        exact List.mem_range.mpr hj
      obtain ⟨p, hp, hpf⟩ := List.mem_map.mp this
      exact hpf ▸ List.mem_map_of_mem Prod.fst (hsub2 p hp)
    exact List.count_eq_one_of_mem k7 hjin

/-- C1.  Count conservation: the exact-merge pass conserves total count
(working set vs processed input rows), the cluster builder conserves total
count (clusters vs working set), and hence the sum of the output clusters'
`party_count` equals the sum of `party_count` over the processed input
records. -/
theorem count_conservation (cfg : Config) (input : List PartyRow) :
    ((working_set cfg input).map (fun r => r.party_count)).sum
      = ((input.take cfg.size).map (fun r => r.party_count)).sum ∧
    ((run cfg input).clusters.map (fun c => c.party_count)).sum
      = ((working_set cfg input).map (fun r => r.party_count)).sum ∧
    ((run cfg input).clusters.map (fun c => c.party_count)).sum
      = ((input.take cfg.size).map (fun r => r.party_count)).sum := by
  refine ⟨working_set_counts cfg input, (run_spec cfg input).1, ?_⟩
  rw [(run_spec cfg input).1, working_set_counts cfg input]

/-- C2.  Partition: every index of the post-exact-merge working set is
consumed exactly once — it appears in the ghost member list of exactly one
emitted cluster (the consumed set only grows, and a consumed index is never
anchored or merged again). -/
theorem partition_each_index_once (cfg : Config) (input : List PartyRow)
    (j : Nat) (hj : j < (working_set cfg input).length) :
    (((run cfg input).clusters.map (fun c => c.members)).flatten).count j = 1 :=
  (run_spec cfg input).2.2 j hj

/-- Witness for C2: the single working row of the one-record run is
consumed exactly once. -/
theorem partition_each_index_once_witness :
    0 < (working_set {} single_a_input).length ∧
    (((run {} single_a_input).clusters.map (fun c => c.members)).flatten).count 0
      = 1 :=
  ⟨by decide, partition_each_index_once {} single_a_input 0 (by decide)⟩

/-- C10.  The reported approximate-match metric equals the total number of
alias entries over all output clusters: each score-above-threshold match
increments the metric exactly once and appends exactly one alias (names are
pairwise distinct after the exact-merge pass, so the `not in party_aliases`
guard never suppresses an append). -/
theorem fuzzy_match_count_eq_alias_total (cfg : Config) (input : List PartyRow) :
    (run cfg input).fuzzy_match_count
      = ((run cfg input).clusters.map (fun c => c.aliases.length)).sum :=
  (run_spec cfg input).2.1


/-- Lowercasing does not change whether a character is whitespace. -/
theorem lower_char_ws (c : Char) : is_ws (lower_char c) = is_ws c := by
  unfold lower_char
  split <;> first | rfl | decide

/-- Lowercasing fixes the space character. -/
theorem lower_char_space : lower_char ' ' = ' ' := rfl

/-- A character is fixed by lowercasing unless it is an uppercase letter. -/
theorem lower_char_not_upper_id (c : Char) (h : ¬ ('A' ≤ c ∧ c ≤ 'Z')) :
    lower_char c = c := by
  unfold lower_char
  split
  all_goals first | rfl | exact absurd (by decide) h

/-- Lowercasing outputs either the input itself or a lowercase letter. -/
theorem lower_char_eq_or (c : Char) :
    lower_char c = c ∨ ('a' ≤ lower_char c ∧ lower_char c ≤ 'z') := by
  unfold lower_char
  split
  all_goals first | exact Or.inl rfl | exact Or.inr (by decide)

/-- Lowercasing is idempotent character-wise. -/
theorem lower_char_idem (c : Char) : lower_char (lower_char c) = lower_char c := by
  rcases lower_char_eq_or c with h | h
  · rw [h]
    exact h
  · refine lower_char_not_upper_id _ ?_
    intro hcon
    exact absurd (lt_of_lt_of_le (by decide : ('Z' : Char) < 'a') h.1)
      (not_lt.mpr hcon.2)

/-- Lowercasing never introduces a punctuation/digit character. -/
theorem lower_char_punct (rn : Bool) (c : Char)
    (h : (punct_chars rn).contains c = false) :
    (punct_chars rn).contains (lower_char c) = false := by
  unfold lower_char
  split
  all_goals first
  | exact h
  | (cases rn <;> decide)

/-- A space is never in the punctuation set. -/
theorem space_not_punct (rn : Bool) : (punct_chars rn).contains ' ' = false := by
  cases rn <;> decide

/-- Characters of a collapse output come from the input or are spaces. -/
theorem mem_collapse_aux :
    ∀ (l : List Char) (b : Bool) (c : Char),
      c ∈ collapse_aux b l → c ∈ l ∨ c = ' ' := by
  intro l
  induction l with
  | nil => intro b c h; cases h
  | cons d ds ih =>
    intro b c h
    by_cases hws : is_ws d
    · rw [collapse_aux, if_pos hws] at h
      cases b with
      | true =>
        rcases ih true c h with h | h
        · exact Or.inl (List.mem_cons_of_mem _ h)
        · exact Or.inr h
      | false =>
        rcases List.mem_cons.mp h with rfl | h
        · exact Or.inr rfl
        · rcases ih true c h with h | h
          · exact Or.inl (List.mem_cons_of_mem _ h)
          · exact Or.inr h
    · rw [collapse_aux, if_neg hws] at h
      rcases List.mem_cons.mp h with rfl | h
      · exact Or.inl (List.mem_cons_self _ _)
      · rcases ih false c h with h | h
        · exact Or.inl (List.mem_cons_of_mem _ h)
        · exact Or.inr h

/-- `split_sp` never returns the empty token list. -/
theorem split_sp_ne_nil : ∀ (l : List Char), split_sp l ≠ [] := by
  intro l
  cases l with
  | nil => simp [split_sp]
  | cons c cs =>
    rw [split_sp]
    by_cases h : c = ' '
    · simp [h]
    · rw [if_neg h]
      rcases hs : split_sp cs with _ | ⟨t, ts⟩
      · simp
      · simp

/-- Characters of a token come from the string that was split. -/
theorem mem_token_split :
    ∀ (l : List Char) (t : List Char), t ∈ split_sp l → ∀ c ∈ t, c ∈ l := by
  intro l
  induction l with
  | nil =>
    intro t ht c hc
    rw [split_sp, List.mem_singleton] at ht
    subst ht
    cases hc
  | cons d ds ih =>
    intro t ht c hc
    by_cases h : d = ' '
    · rw [split_sp, if_pos h] at ht
      rcases List.mem_cons.mp ht with rfl | ht
      · cases hc
      · exact List.mem_cons_of_mem _ (ih t ht c hc)
    · rw [split_sp, if_neg h] at ht
      rcases hs : split_sp ds with _ | ⟨u, us⟩
      · exact absurd hs (split_sp_ne_nil ds)
      · rw [hs] at ht
        rcases List.mem_cons.mp ht with rfl | ht
        · rcases List.mem_cons.mp hc with rfl | hc
          · exact List.mem_cons_self _ _
          · exact List.mem_cons_of_mem _ (ih u (hs ▸ List.mem_cons_self _ _) c hc)
        · exact List.mem_cons_of_mem _
            (ih t (hs ▸ List.mem_cons_of_mem _ ht) c hc)

/-- Characters of a join come from some token or are the inserted spaces. -/
theorem mem_join_sp :
    ∀ (ts : List (List Char)) (c : Char),
      c ∈ join_sp ts → (∃ t ∈ ts, c ∈ t) ∨ c = ' '
  | [], c, h => by cases h
  | [t], c, h => Or.inl ⟨t, List.mem_singleton_self _, h⟩
  | t :: u :: us, c, h => by
    rw [show join_sp (t :: u :: us) = t ++ ' ' :: join_sp (u :: us) from rfl] at h
    rcases List.mem_append.mp h with h | h
    · exact Or.inl ⟨t, List.mem_cons_self _ _, h⟩
    · rcases List.mem_cons.mp h with rfl | h
      · exact Or.inr rfl
      · rcases mem_join_sp (u :: us) c h with ⟨v, hv, hc⟩ | h
        · exact Or.inl ⟨v, List.mem_cons_of_mem _ hv, hc⟩
        · exact Or.inr h

/-- Characters survive stopword removal or are the re-join's spaces. -/
theorem mem_remove_stopwords (l : List Char) (c : Char)
    (h : c ∈ remove_stopwords l) : c ∈ l ∨ c = ' ' := by
  unfold remove_stopwords at h
  rcases mem_join_sp _ c h with ⟨t, ht, hc⟩ | h
  · exact Or.inl (mem_token_split l t (List.mem_of_mem_filter ht) c hc)
  · exact Or.inr h

/-- Tokens produced by `split_sp` contain no space. -/
theorem split_sp_no_space :
    ∀ (l : List Char) (t : List Char), t ∈ split_sp l → ' ' ∉ t := by
  intro l
  induction l with
  | nil =>
    intro t ht
    rw [split_sp, List.mem_singleton] at ht
    subst ht
    exact List.not_mem_nil _
  | cons d ds ih =>
    intro t ht
    by_cases h : d = ' '
    · rw [split_sp, if_pos h] at ht
      rcases List.mem_cons.mp ht with rfl | ht
      · exact List.not_mem_nil _
      · exact ih t ht
    · rw [split_sp, if_neg h] at ht
      rcases hs : split_sp ds with _ | ⟨u, us⟩
      · exact absurd hs (split_sp_ne_nil ds)
      · rw [hs] at ht
        rcases List.mem_cons.mp ht with rfl | ht
        · intro hc
          rcases List.mem_cons.mp hc with he | hc
          · exact h he.symm
          · exact ih u (hs ▸ List.mem_cons_self _ _) hc
        · exact ih t (hs ▸ List.mem_cons_of_mem _ ht)

/-- `join_sp` over a cons with a nonempty tail inserts a single space. -/
theorem join_sp_cons (t : List Char) (ts : List (List Char)) (h : ts ≠ []) :
    join_sp (t :: ts) = t ++ ' ' :: join_sp ts := by
  cases ts with
  | nil => exact absurd rfl h
  | cons u us => rfl

/-- Joining the split of a string gives the string back. -/
theorem join_sp_split_sp : ∀ (l : List Char), join_sp (split_sp l) = l := by
  intro l
  induction l with
  | nil => rfl
  | cons c cs ih =>
    by_cases h : c = ' '
    · rw [split_sp, if_pos h,
        join_sp_cons [] (split_sp cs) (split_sp_ne_nil cs),
        List.nil_append, ih, h]
    · rw [split_sp, if_neg h]
      rcases hs : split_sp cs with _ | ⟨t, ts⟩
      · exact absurd hs (split_sp_ne_nil cs)
      · rw [hs] at ih
        cases ts with
        | nil =>
          have ht : t = cs := by simpa [join_sp] using ih
          simp [join_sp, ht]
        | cons u us =>
          have hj : join_sp ((c :: t) :: u :: us)
              = (c :: t) ++ ' ' :: join_sp (u :: us) := rfl
          have hj2 : join_sp (t :: u :: us) = t ++ ' ' :: join_sp (u :: us) := rfl
          rw [hj2] at ih
          rw [hj, List.cons_append, ih]


/-- A space-free string splits into exactly itself. -/
theorem split_sp_no_space_id :
    ∀ (t : List Char), ' ' ∉ t → split_sp t = [t] := by
  intro t
  induction t with
  | nil => intro; rfl
  | cons c t' ih =>
    intro h
    have hc : ¬ (c = ' ') := fun he => h (he ▸ List.mem_cons_self _ _)
    rw [split_sp, if_neg hc, ih (fun hm => h (List.mem_cons_of_mem _ hm))]

/-- Splitting a space-free token followed by a space peels it off. -/
theorem split_sp_append_space (t r : List Char) (ht : ' ' ∉ t) :
    split_sp (t ++ ' ' :: r) = t :: split_sp r := by
  induction t with
  | nil =>
    rw [List.nil_append, split_sp, if_pos rfl]
  | cons c t' ih =>
    have hc : ¬ (c = ' ') := fun he => ht (he ▸ List.mem_cons_self _ _)
    rw [List.cons_append, split_sp, if_neg hc,
      ih (fun hm => ht (List.mem_cons_of_mem _ hm))]

/-- Splitting the join of nonempty, space-free token lists is the identity. -/
theorem split_sp_join_sp :
    ∀ (ts : List (List Char)), ts ≠ [] → (∀ t ∈ ts, ' ' ∉ t) →
      split_sp (join_sp ts) = ts
  | [], h, _ => absurd rfl h
  | [t], _, hts => by
    rw [show join_sp [t] = t from rfl]
    exact split_sp_no_space_id t (hts t (List.mem_singleton_self _))
  | t :: u :: us, _, hts => by
    rw [join_sp_cons t (u :: us) (by simp),
      split_sp_append_space t _ (hts t (List.mem_cons_self _ _)),
      split_sp_join_sp (u :: us) (by simp)
        (fun v hv => hts v (List.mem_cons_of_mem _ hv))]

/-- A token with no whitespace character at all. -/
def token_wsfree (t : List Char) : Bool := t.all (fun c => !is_ws c)

/-- All tokens whitespace-free; every token except possibly the last is
nonempty. -/
def mid_ok : List (List Char) → Bool
  | [] => true
  | [t] => token_wsfree t
  | t :: ts => (!t.isEmpty) && token_wsfree t && mid_ok ts

/-- All tokens whitespace-free; every token except possibly the first and
the last is nonempty — the exact shape `split_sp` produces on a
whitespace-canonical string. -/
def good_tokens : List (List Char) → Bool
  | [] => true
  | t :: ts => token_wsfree t && mid_ok ts

/-- The cons-cons unfolding of `mid_ok` (its third equation). -/
theorem mid_ok_cons2 (t u : List Char) (us : List (List Char)) :
    mid_ok (t :: u :: us) = ((!t.isEmpty) && token_wsfree t && mid_ok (u :: us)) := rfl

/-- `mid_ok` is stronger than `good_tokens`. -/
theorem mid_ok_to_good :
    ∀ (ts : List (List Char)), mid_ok ts = true → good_tokens ts = true
  | [], _ => rfl
  | [t], h => by
    rw [good_tokens]
    simp only [mid_ok] at h ⊢
    simp [h]
  | t :: u :: us, h => by
    rw [mid_ok_cons2, Bool.and_eq_true, Bool.and_eq_true] at h
    rw [good_tokens, Bool.and_eq_true]
    exact ⟨h.1.2, h.2⟩

/-- Filtering with a predicate that keeps the empty token preserves
`mid_ok`. -/
theorem mid_ok_filter (p : List Char → Bool) (hp : p [] = true) :
    ∀ (ts : List (List Char)), mid_ok ts = true → mid_ok (ts.filter p) = true
  | [], _ => rfl
  | [t], h => by
    rw [List.filter_cons]
    by_cases hpt : p t = true
    · rw [if_pos hpt]
      exact h
    · rw [if_neg hpt]
      rfl
  | t :: u :: us, h => by
    rw [mid_ok_cons2, Bool.and_eq_true, Bool.and_eq_true] at h
    have ihtail := mid_ok_filter p hp (u :: us) h.2
    rw [List.filter_cons]
    by_cases hpt : p t = true
    · rw [if_pos hpt]
      rcases hf : (u :: us).filter p with _ | ⟨v, vs⟩
      · simpa [mid_ok] using h.1.2
      · rw [hf] at ihtail
        rw [mid_ok_cons2, Bool.and_eq_true, Bool.and_eq_true]
        exact ⟨⟨h.1.1, h.1.2⟩, ihtail⟩
    · rw [if_neg hpt]
      exact ihtail

/-- Filtering with a predicate that keeps the empty token preserves
`good_tokens`. -/
theorem good_tokens_filter (p : List Char → Bool) (hp : p [] = true) :
    ∀ (ts : List (List Char)), good_tokens ts = true →
      good_tokens (ts.filter p) = true
  | [], _ => rfl
  | t :: ts, h => by
    rw [good_tokens, Bool.and_eq_true] at h
    rw [List.filter_cons]
    by_cases hpt : p t = true
    · rw [if_pos hpt, good_tokens, Bool.and_eq_true]
      exact ⟨h.1, mid_ok_filter p hp ts h.2⟩
    · rw [if_neg hpt]
      exact mid_ok_to_good _ (mid_ok_filter p hp ts h.2)

/-- Splitting a whitespace-canonical string yields `good_tokens`. -/
theorem collapsed_ok_split :
    ∀ (l : List Char), collapsed_ok l = true → good_tokens (split_sp l) = true
  | [], _ => rfl
  | [c], h => by
    by_cases hws : is_ws c
    · have hc : c = ' ' := by
        simp [collapsed_ok, hws] at h
        exact h
      subst hc
      decide
    · have hc : ¬ (c = ' ') := fun he => hws (by rw [he]; decide)
      rw [split_sp, if_neg hc]
      rw [show split_sp ([] : List Char) = [[]] from rfl]
      simp [good_tokens, mid_ok, token_wsfree, hws]
  | c :: d :: cs, h => by
    have hsplit : (!is_ws c || (c = ' ' && !is_ws d)) = true ∧
        collapsed_ok (d :: cs) = true := by
      simpa [collapsed_ok, Bool.and_eq_true] using h
    have ih := collapsed_ok_split (d :: cs) hsplit.2
    by_cases hws : is_ws c
    · have hc : c = ' ' ∧ is_ws d = false := by
        rcases Bool.or_eq_true _ _ |>.mp hsplit.1 with h1 | h2
        · exact absurd hws (by simpa using h1)
        · rcases Bool.and_eq_true _ _ |>.mp h2 with ⟨ha, hb⟩
          exact ⟨by simpa using ha, by simpa using hb⟩
      have hd : ¬ (d = ' ') := by
        intro he
        rw [he] at hc
        exact absurd hc.2 (by decide)
      rw [split_sp, if_pos hc.1]
      rw [good_tokens, Bool.and_eq_true]
      refine ⟨rfl, ?_⟩
      rw [split_sp, if_neg hd]
      rcases hs : split_sp cs with _ | ⟨t, ts⟩
      · exact absurd hs (split_sp_ne_nil cs)
      · rw [split_sp, if_neg hd, hs] at ih
        rw [good_tokens, Bool.and_eq_true] at ih
        cases ts with
        | nil =>
          simpa [mid_ok, token_wsfree, hc.2] using ih.1
        | cons v vs =>
          rw [mid_ok_cons2, Bool.and_eq_true, Bool.and_eq_true]
          exact ⟨⟨by simp, ih.1⟩, ih.2⟩
    · have hc : ¬ (c = ' ') := fun he => hws (by rw [he]; decide)
      rw [split_sp, if_neg hc]
      rcases hs : split_sp (d :: cs) with _ | ⟨t, ts⟩
      · exact absurd hs (split_sp_ne_nil _)
      · rw [hs] at ih
        rw [good_tokens, Bool.and_eq_true] at ih
        rw [good_tokens, Bool.and_eq_true]
        refine ⟨?_, ih.2⟩
        simp only [token_wsfree, List.all_cons, Bool.and_eq_true]
        exact ⟨by simpa using hws, ih.1⟩

/-- Prepending a non-whitespace character preserves whitespace canonicity. -/
theorem collapsed_ok_cons_nonws (c : Char) (xs : List Char)
    (hc : is_ws c = false) (hxs : collapsed_ok xs = true) :
    collapsed_ok (c :: xs) = true := by
  cases xs with
  | nil => simp [collapsed_ok, hc]
  | cons x xs' => simp [collapsed_ok, hc, hxs]

/-- A whitespace-free token can be prepended to a canonical space-headed
tail. -/
theorem collapsed_ok_append_space :
    ∀ (t r : List Char), token_wsfree t = true →
      collapsed_ok (' ' :: r) = true → collapsed_ok (t ++ ' ' :: r) = true := by
  intro t
  induction t with
  | nil => intro r _ hr; exact hr
  | cons c t' ih =>
    intro r hwf hr
    rw [token_wsfree, List.all_cons, Bool.and_eq_true] at hwf
    rw [List.cons_append]
    exact collapsed_ok_cons_nonws c _ (by simpa using hwf.1)
      (ih r hwf.2 hr)

/-- A whitespace-free string is whitespace-canonical. -/
theorem token_wsfree_collapsed :
    ∀ (t : List Char), token_wsfree t = true → collapsed_ok t = true
  | [], _ => rfl
  | c :: cs, h => by
    rw [token_wsfree, List.all_cons, Bool.and_eq_true] at h
    exact collapsed_ok_cons_nonws c cs (by simpa using h.1)
      (token_wsfree_collapsed cs h.2)

/-- The head of the join of `mid_ok` tokens is never whitespace. -/
theorem join_sp_head_nonws :
    ∀ (ts : List (List Char)), mid_ok ts = true →
      ∀ (x : Char) (xs : List Char), join_sp ts = x :: xs → is_ws x = false
  | [], _, x, xs, h => by cases h
  | [t], hm, x, xs, h => by
    rw [show join_sp [t] = t from rfl] at h
    rw [mid_ok] at hm
    subst h
    rw [token_wsfree, List.all_cons, Bool.and_eq_true] at hm
    simpa using hm.1
  | t :: u :: us, hm, x, xs, h => by
    rw [mid_ok_cons2, Bool.and_eq_true, Bool.and_eq_true] at hm
    rw [join_sp_cons t (u :: us) (by simp)] at h
    cases t with
    | nil => exact absurd hm.1.1 (by simp)
    | cons e t' =>
      rw [List.cons_append, List.cons.injEq] at h
      have hwf := hm.1.2
      rw [token_wsfree, List.all_cons, Bool.and_eq_true] at hwf
      rw [← h.1]
      simpa using hwf.1

/-- Joining `good_tokens` gives back a whitespace-canonical string. -/
theorem good_tokens_join :
    ∀ (ts : List (List Char)), good_tokens ts = true →
      collapsed_ok (join_sp ts) = true
  | [], _ => rfl
  | [t], h => by
    rw [show join_sp [t] = t from rfl]
    rw [good_tokens, Bool.and_eq_true] at h
    exact token_wsfree_collapsed t h.1
  | t :: u :: us, h => by
    rw [good_tokens, Bool.and_eq_true] at h
    rw [join_sp_cons t (u :: us) (by simp)]
    refine collapsed_ok_append_space t _ h.1 ?_
    have hrec : collapsed_ok (join_sp (u :: us)) = true :=
      good_tokens_join (u :: us) (mid_ok_to_good _ h.2)
    rcases hj : join_sp (u :: us) with _ | ⟨x, xs⟩
    · decide
    · have hx := join_sp_head_nonws (u :: us) h.2 x xs hj
      rw [hj] at hrec
      simp [collapsed_ok, hx, hrec]

/-- Stopword removal preserves whitespace canonicity. -/
theorem collapsed_ok_remove_stopwords (l : List Char)
    (h : collapsed_ok l = true) :
    collapsed_ok (remove_stopwords l) = true := by
  unfold remove_stopwords
  refine good_tokens_join _ ?_
  refine good_tokens_filter _ (by decide) _ ?_
  exact collapsed_ok_split l h


/-- The punctuation stage is the identity on punctuation-free strings. -/
theorem remove_punc_num_id (rn : Bool) (l : List Char)
    (h : ∀ c ∈ l, (punct_chars rn).contains c = false) :
    remove_punc_num rn l = l := by
  unfold remove_punc_num
  apply List.filter_eq_self.mpr
  intro c hc
  rw [h c hc]
  rfl

/-- The lowercase stage is the identity when every character is fixed. -/
theorem lower_name_id (l : List Char) (h : ∀ c ∈ l, lower_char c = c) :
    lower_name l = l := by
  unfold lower_name
  conv_rhs => rw [← List.map_id l]
  exact List.map_congr_left (fun c hc => h c hc)

/-- Stopword removal is the identity when no token is a stopword. -/
theorem remove_stopwords_id (l : List Char)
    (h : ∀ t ∈ split_sp l, (!stopwords_global.contains (String.mk t)) = true) :
    remove_stopwords l = l := by
  unfold remove_stopwords
  rw [List.filter_eq_self.mpr h, join_sp_split_sp]

/-- The punctuation stage outputs punctuation-free strings. -/
theorem mem_remove_punc_num (rn : Bool) (l : List Char) :
    ∀ c ∈ remove_punc_num rn l, (punct_chars rn).contains c = false := by
  intro c hc
  unfold remove_punc_num at hc
  have := List.of_mem_filter hc
  simpa using this

/-- Collapsing preserves punctuation-freeness. -/
theorem punct_free_collapse (rn : Bool) (l : List Char)
    (h : ∀ c ∈ l, (punct_chars rn).contains c = false) :
    ∀ c ∈ collapse_ws l, (punct_chars rn).contains c = false := by
  intro c hc
  rcases mem_collapse_aux l false c hc with hm | rfl
  · exact h c hm
  · exact space_not_punct rn

/-- Lowercasing preserves punctuation-freeness. -/
theorem punct_free_lower (rn : Bool) (l : List Char)
    (h : ∀ c ∈ l, (punct_chars rn).contains c = false) :
    ∀ c ∈ lower_name l, (punct_chars rn).contains c = false := by
  intro c hc
  obtain ⟨d, hd, rfl⟩ := List.mem_map.mp hc
  exact lower_char_punct rn d (h d hd)

/-- Stopword removal preserves punctuation-freeness. -/
theorem punct_free_remove_stopwords (rn : Bool) (l : List Char)
    (h : ∀ c ∈ l, (punct_chars rn).contains c = false) :
    ∀ c ∈ remove_stopwords l, (punct_chars rn).contains c = false := by
  intro c hc
  rcases mem_remove_stopwords l c hc with hm | rfl
  · exact h c hm
  · exact space_not_punct rn

/-- Every character of a lowercased string is fixed by lowercasing. -/
theorem lower_fix_lower_name (l : List Char) :
    ∀ c ∈ lower_name l, lower_char c = c := by
  intro c hc
  obtain ⟨d, hd, rfl⟩ := List.mem_map.mp hc
  exact lower_char_idem d

/-- Stopword removal preserves lowercase-fixedness. -/
theorem lower_fix_remove_stopwords (l : List Char)
    (h : ∀ c ∈ l, lower_char c = c) :
    ∀ c ∈ remove_stopwords l, lower_char c = c := by
  intro c hc
  rcases mem_remove_stopwords l c hc with hm | rfl
  · exact h c hm
  · exact lower_char_space

/-- Lowercasing preserves whitespace canonicity. -/
theorem collapsed_ok_lower :
    ∀ (l : List Char), collapsed_ok l = true →
      collapsed_ok (lower_name l) = true
  | [], _ => rfl
  | [c], h => by
    show collapsed_ok [lower_char c] = true
    rw [collapsed_ok] at h ⊢
    rcases Bool.or_eq_true _ _ |>.mp h with h1 | h2
    · have hlc : is_ws (lower_char c) = false := by
        rw [lower_char_ws]
        simpa using h1
      simp [hlc]
    · have hc : c = ' ' := by simpa using h2
      subst hc
      decide
  | c :: d :: cs, h => by
    have hsplit : (!is_ws c || (c = ' ' && !is_ws d)) = true ∧
        collapsed_ok (d :: cs) = true := by
      simpa [collapsed_ok, Bool.and_eq_true] using h
    have ih := collapsed_ok_lower (d :: cs) hsplit.2
    show collapsed_ok (lower_char c :: lower_char d :: lower_name cs) = true
    rw [show collapsed_ok (lower_char c :: lower_char d :: lower_name cs)
        = ((!is_ws (lower_char c)
            || (lower_char c = ' ' && !is_ws (lower_char d)))
          && collapsed_ok (lower_char d :: lower_name cs)) from rfl,
      Bool.and_eq_true]
    refine ⟨?_, ih⟩
    rcases Bool.or_eq_true _ _ |>.mp hsplit.1 with h1 | h2
    · apply Bool.or_eq_true _ _ |>.mpr
      left
      rw [lower_char_ws]
      exact h1
    · rcases Bool.and_eq_true _ _ |>.mp h2 with ⟨ha, hb⟩
      apply Bool.or_eq_true _ _ |>.mpr
      right
      apply Bool.and_eq_true _ _ |>.mpr
      have hc : c = ' ' := by simpa using ha
      refine ⟨by simp [hc, lower_char_space], ?_⟩
      rw [lower_char_ws]
      exact hb

/-- After stopword removal, no token of the output is a stopword. -/
theorem tokens_remove_stopwords (l : List Char) :
    ∀ t ∈ split_sp (remove_stopwords l),
      (!stopwords_global.contains (String.mk t)) = true := by
  intro t ht
  unfold remove_stopwords at ht
  rcases hf : (split_sp l).filter
      (fun t => !stopwords_global.contains (String.mk t)) with _ | ⟨u, us⟩
  · rw [hf] at ht
    rw [show join_sp [] = [] from rfl] at ht
    rw [show split_sp [] = [[]] from rfl] at ht
    rw [List.mem_singleton] at ht
    subst ht
    decide
  · rw [hf] at ht
    rw [split_sp_join_sp (u :: us) (by simp)
      (fun v hv => split_sp_no_space l v (List.mem_of_mem_filter (hf ▸ hv)))] at ht
    have htf : t ∈ (split_sp l).filter
        (fun t => !stopwords_global.contains (String.mk t)) := by
      rw [hf]
      exact ht
    have hres := List.of_mem_filter htf
    exact hres

/-- Characters survive the conditional stopword stage or are spaces. -/
theorem stop_stage_mem (cfg : Config) (l : List Char) (c : Char)
    (h : c ∈ stop_stage cfg l) : c ∈ l ∨ c = ' ' := by
  unfold stop_stage at h
  by_cases hstop : truthy_stop cfg.stopwords = true
  · rw [if_pos hstop] at h
    exact mem_remove_stopwords l c h
  · rw [if_neg hstop] at h
    exact Or.inl h

/-- The conditional stopword stage preserves whitespace canonicity. -/
theorem stop_stage_collapsed (cfg : Config) (l : List Char)
    (h : collapsed_ok l = true) : collapsed_ok (stop_stage cfg l) = true := by
  unfold stop_stage
  by_cases hstop : truthy_stop cfg.stopwords = true
  · rw [if_pos hstop]
    exact collapsed_ok_remove_stopwords l h
  · rw [if_neg hstop]
    exact h

/-- The core of C8 amended: a string enjoying the invariants the first
normalisation pass establishes is a fixed point of the whole pipeline,
provided no abbreviation mapping is configured. -/
theorem norm_core_id (cfg : Config) (y : List Char)
    (hNP : ∀ c ∈ y, (punct_chars cfg.remove_numbers).contains c = false)
    (hCO : collapsed_ok y = true)
    (hLF : ∀ c ∈ y, lower_char c = c)
    (hST : truthy_stop cfg.stopwords = true →
      ∀ t ∈ split_sp y, (!stopwords_global.contains (String.mk t)) = true)
    (habb : truthy_abb cfg.abbreviations = false) :
    normalize_name cfg (String.mk y) = String.mk y := by
  unfold normalize_name
  rw [show (String.mk y).toList = y from rfl]
  rw [remove_punc_num_id _ _ hNP]
  rw [show collapse_ws y = y from collapse_aux_id y hCO]
  rw [lower_name_id y hLF]
  have h2 : stop_stage cfg y = y := by
    unfold stop_stage
    by_cases hstop : truthy_stop cfg.stopwords = true
    · rw [if_pos hstop]
      exact remove_stopwords_id y (hST hstop)
    · rw [if_neg hstop]
  rw [h2]
  have h3 : abb_stage cfg y = y := by
    unfold abb_stage
    rw [habb]
    rfl
  rw [h3]

/-- C8 amended.  With no abbreviation mapping configured (any
`remove_numbers` flag, any stopword set), normalisation is idempotent:
normalising an already-normalised name returns it unchanged. -/
theorem normalize_idempotent_no_abbrev (cfg : Config) (s : String)
    (habb : truthy_abb cfg.abbreviations = false) :
    normalize_name cfg (normalize_name cfg s) = normalize_name cfg s := by
  have habbs : ∀ l, abb_stage cfg l = l := by
    intro l
    unfold abb_stage
    rw [habb]
    rfl
  have hN : normalize_name cfg s = String.mk (stop_stage cfg (lower_name
      (collapse_ws (remove_punc_num cfg.remove_numbers s.toList)))) := by
    unfold normalize_name
    rw [habbs]
  rw [hN]
  refine norm_core_id cfg _ ?_ ?_ ?_ ?_ habb
  · intro c hc
    rcases stop_stage_mem cfg _ c hc with hm | rfl
    · exact punct_free_lower _ _
        (punct_free_collapse _ _ (mem_remove_punc_num _ _)) c hm
    · exact space_not_punct _
  · exact stop_stage_collapsed cfg _
      (collapsed_ok_lower _ (collapse_aux_collapsed_ok _ false))
  · intro c hc
    rcases stop_stage_mem cfg _ c hc with hm | rfl
    · exact lower_fix_lower_name _ c hm
    · exact lower_char_space
  · intro hstop t ht
    unfold stop_stage at ht
    rw [if_pos hstop] at ht
    exact tokens_remove_stopwords _ t ht

/-- The configuration of the C8 counterexample: an abbreviation mapping
whose value `"bb"` is itself a key. -/
def chain_abb_cfg : Config := { abbreviations := some [("aa", "bb"), ("bb", "cc")] }

/-- C8 counterexample.  With the abbreviation mapping
`{"aa": "bb", "bb": "cc"}` the name `"aa"` normalises to `"bb"`, but
normalising `"bb"` gives `"cc"`: normalisation is NOT idempotent for every
configuration — an abbreviated token can itself be a key of the mapping. -/
theorem normalize_not_idempotent :
    normalize_name chain_abb_cfg "aa" = "bb" ∧
    normalize_name chain_abb_cfg (normalize_name chain_abb_cfg "aa") = "cc" ∧
    normalize_name chain_abb_cfg (normalize_name chain_abb_cfg "aa")
      ≠ normalize_name chain_abb_cfg "aa" := by
  refine ⟨by decide, by decide, by decide⟩

/-- Witness for C8 amended at a concrete stopword-configured run. -/
theorem normalize_idempotent_no_abbrev_witness :
    truthy_abb (Config.abbreviations
      { stopwords := some ["llc"], algorithm := "seq" }) = false ∧
    normalize_name { stopwords := some ["llc"], algorithm := "seq" }
        (normalize_name { stopwords := some ["llc"], algorithm := "seq" }
          " A.B  Llc Inc 7x ")
      = normalize_name { stopwords := some ["llc"], algorithm := "seq" }
          " A.B  Llc Inc 7x " :=
  ⟨by decide, normalize_idempotent_no_abbrev _ _ (by decide)⟩

end FuzzyMatching
